import Mathlib

/-!
Verification of the disk block cache (`block/disk_block_cache.go`) and the
work-sharing scheduler test harness (`internal/workshare/workshare_test.go`)
of this repository, as a shallow embedding in Lean.

Modelling conventions:
* Byte slices are `List Nat`; Go `int64`/`int` values are mathematical `Int`.
  Where the source performs an `int64` addition that a caller-supplied value
  can push past the 64-bit range (`offset + length` in
  `applyOffsetAndLength`), two's-complement wrap-around is applied explicitly
  (`int64Wrap`); a Go slice length always fits in `int64`, so the cast
  `int64(len(b))` is exact.
* The HMAC-SHA256 tag computation (`hmac.New(sha256.New, secret)` followed by
  `Sum`) is kept abstract as a parameter `tag : List Nat → List Nat`; the only
  fact the code relies on is that a SHA-256 HMAC tag is a deterministic
  function of the payload (for a fixed secret) and is exactly 32 bytes long,
  which appears as the hypothesis `(tag d).length = sha256Size` where needed.
* Filesystem and backend interactions are modelled by explicit oracles: a map
  from file name to read outcome, and the backend response value.  Best-effort
  cache writes are surfaced as an `Option (List Nat)` field (the contents the
  code hands to `writeFileAtomic`), since their failure is ignored by the code.
* Go slice expressions can panic on out-of-range indices; a panic is modelled
  as `none` in an `Option`-wrapped result (`goSlice`).
-/

deriving instance DecidableEq for Except

namespace Kopia

/-- `sha256.Size` in Go: a SHA-256 digest is 32 bytes. -/
def sha256Size : Nat := 32

/-- Embedding of `diskBlockCache.appendHMAC`: returns `data ++ HMAC-tag(data)`. -/
def appendHMAC (tag : List Nat → List Nat) (data : List Nat) : List Nat :=
  data ++ tag data

/-- Embedding of `diskBlockCache.verifyHMAC`: splits the trailing 32 bytes off,
recomputes the tag over the rest and compares. -/
def verifyHMAC (tag : List Nat → List Nat) (b : List Nat) : Except String (List Nat) :=
  if b.length < sha256Size then
    .error ("invalid data - too short")
  else
    let p := b.length - sha256Size
    let data := b.take p
    let signature := b.drop p
    let validSignature := tag data
    if signature.length ≠ validSignature.length then
      .error ("invalid signature length")
    else if validSignature = signature then
      .ok data
    else
      .error ("invalid data - corrupted")

/-- Go slice expression `b[lo:hi]` (capacity = length here): defined when
`0 ≤ lo ≤ hi ≤ len(b)`, otherwise a runtime panic, modelled as `none`. -/
def goSlice (b : List Nat) (lo hi : Int) : Option (List Nat) :=
  if 0 ≤ lo ∧ lo ≤ hi ∧ hi ≤ (b.length : Int) then
    some ((b.drop lo.toNat).take (hi - lo).toNat)
  else none

/-- Two's-complement wrap-around of a mathematical integer into the `int64`
range `[-2^63, 2^63)`, as Go `int64` addition behaves on overflow. -/
def int64Wrap (z : Int) : Int :=
  (z + 2 ^ 63) % 2 ^ 64 - 2 ^ 63

/-- Embedding of `applyOffsetAndLength` (the spec calls it `sliceRange`).
`none` models a Go slice-bounds panic.  The sum `offset + length` is computed
in `int64` by the source (both in the bounds check and in the slice
expression), so it wraps on overflow. -/
def applyOffsetAndLength (b : List Nat) (offset length : Int) :
    Option (Except String (List Nat)) :=
  if offset > (b.length : Int) then
    some (.error ("offset of bounds"))
  else if length < 0 then
    (goSlice b offset (b.length : Int)).map .ok
  else if int64Wrap (offset + length) > (b.length : Int) then
    some (.error ("length of bounds"))
  else
    (goSlice b offset (int64Wrap (offset + length))).map .ok

/-- Claim C4: for every payload, including the empty payload,
`verifyHMAC(appendHMAC(payload))` succeeds and returns exactly the original
payload — the round-trip identity of the HMAC utilities under the same secret
(abstracted as any 32-byte deterministic tag function). -/
theorem verifyHMAC_appendHMAC (tag : List Nat → List Nat)
    (htag : ∀ d, (tag d).length = sha256Size) (payload : List Nat) :
    verifyHMAC tag (appendHMAC tag payload) = .ok payload := by
  have hlen : (appendHMAC tag payload).length = payload.length + sha256Size := by
    simp [appendHMAC, htag]
  have hp : (appendHMAC tag payload).length - sha256Size = payload.length := by
    omega
  have htake : (appendHMAC tag payload).take payload.length = payload := by
    simp [appendHMAC]
  have hdrop : (appendHMAC tag payload).drop payload.length = tag payload := by
    simp [appendHMAC]
  rw [verifyHMAC]
  rw [if_neg (by omega)]
  simp only [hp, htake, hdrop]
  rw [if_neg (by simp [htag])]
  simp

/-- A Go `error` value as produced or consumed by the cache layer:
`storage.ErrBlockNotFound` is the one distinguished error the code compares
against; every other error is carried as its message. -/
inductive GoErr where
  | blockNotFound
  | msg (s : String)
deriving DecidableEq, Repr

/-- `block.Info` — `{BlockID, Length, Timestamp}` metadata for one index block.
Timestamps are modelled as integers. -/
structure Info where
  blockID : String
  length : Int
  timestamp : Int
deriving DecidableEq, Repr

/-- `cachedSuffix = ".cached"`. -/
def cachedSuffix : String := ".cached"

/-- `diskBlockCache.cachedItemName`: `filepath.Join(c.directory, name+cachedSuffix)`. -/
def cachedItemName (directory name : String) : String :=
  directory ++ "/" ++ name ++ cachedSuffix

/-- Outcome of `ioutil.ReadFile`: success with the file contents, an
`os.IsNotExist` error, or any other read error. -/
inductive ReadFileResult where
  | ok (data : List Nat)
  | notExist
  | otherError (s : String)
deriving DecidableEq, Repr

/-- The observable outcome of one `getBlock` call: the value returned to the
caller, whether the backend `GetBlock` was invoked, and the contents handed to
`writeFileAtomic` for the cache file (best-effort, `none` if no write was
attempted). -/
structure GetBlockOutcome where
  result : Except GoErr (List Nat)
  backendCalled : Bool
  cacheWrite : Option (List Nat)
deriving DecidableEq, Repr

/-- Lines 58-70 of `getBlock`: fetch from the backend; `ErrBlockNotFound` is
returned verbatim; on success the HMAC-signed result is written to the cache
file (write failures only logged); any other error is returned with no write. -/
def getBlockFromSource (tag : List Nat → List Nat)
    (backend : String → Int → Int → Except GoErr (List Nat))
    (physicalBlockID : String) (offset length : Int) : GetBlockOutcome :=
  match backend physicalBlockID offset length with
  | .error GoErr.blockNotFound => ⟨.error GoErr.blockNotFound, true, none⟩
  | .error e => ⟨.error e, true, none⟩
  | .ok b => ⟨.ok b, true, some (appendHMAC tag b)⟩

/-- Embedding of `diskBlockCache.getBlock`.  `fs` is the read oracle for the
local cache directory; `backend` is the oracle for `c.st.GetBlock`. -/
def getBlock (tag : List Nat → List Nat) (directory : String)
    (fs : String → ReadFileResult)
    (backend : String → Int → Int → Except GoErr (List Nat))
    (virtualBlockID physicalBlockID : String) (offset length : Int) :
    GetBlockOutcome :=
  match fs (cachedItemName directory virtualBlockID) with
  | .ok b =>
    match verifyHMAC tag b with
    | .ok payload => ⟨.ok payload, false, none⟩
    | .error _ => getBlockFromSource tag backend physicalBlockID offset length
  | .notExist => getBlockFromSource tag backend physicalBlockID offset length
  | .otherError _ => getBlockFromSource tag backend physicalBlockID offset length

/-- Point update of a contents-map model of the cache directory
(`none` = file absent). -/
def updateFs (fs : String → Option (List Nat)) (k : String) (v : Option (List Nat)) :
    String → Option (List Nat) :=
  fun x => if x = k then v else fs x

/-- Embedding of `diskBlockCache.deleteListCache`: removes both reserved
listing cache files. -/
def deleteListCache (directory : String) (fs : String → Option (List Nat)) :
    String → Option (List Nat) :=
  updateFs (updateFs fs (cachedItemName directory "list-full") none)
    (cachedItemName directory "list-active") none

/-- Embedding of `diskBlockCache.putBlock` as a function of the backend
`PutBlock` outcome (`backendErr`, `none` = success) and of whether the
best-effort `writeFileAtomic` mirror succeeds (`writeOk`; its error is
discarded by the code).  Returns the new cache-directory state and the error
returned to the caller. -/
def putBlock (tag : List Nat → List Nat) (directory : String)
    (backendErr : Option GoErr) (writeOk : Bool)
    (fs : String → Option (List Nat)) (blockID : String) (data : List Nat) :
    (String → Option (List Nat)) × Option GoErr :=
  match backendErr with
  | some e => (fs, some e)
  | none =>
    let fs1 :=
      if writeOk then
        updateFs fs (cachedItemName directory blockID) (some (appendHMAC tag data))
      else fs
    (deleteListCache directory fs1, none)

/-- An open handle on a cache file, as `listIndexBlocks` uses it: the outcome
of `f.Stat()` (`some modTime` on success) and the outcome of
`ioutil.ReadAll(f)`. -/
structure OpenedFile where
  modTimeStat : Option Int
  readAll : Except String (List Nat)
deriving DecidableEq, Repr

/-- Outcome of `os.Open` on a cache file name. -/
inductive OpenResult where
  | opened (f : OpenedFile)
  | openError
deriving DecidableEq, Repr

/-- The observable outcome of one `listIndexBlocks` call, analogous to
`GetBlockOutcome`. -/
structure ListOutcome where
  result : Except GoErr (List Info)
  backendCalled : Bool
  cacheWrite : Option (List Nat)
deriving DecidableEq, Repr

/-- Embedding of `diskBlockCache.readBlocksFromCacheFile`: read everything,
verify the HMAC, JSON-decode.  `unm` is the abstract `json.Unmarshal` into
`[]Info`. -/
def readBlocksFromCacheFile (tag : List Nat → List Nat)
    (unm : List Nat → Except String (List Info))
    (readAll : Except String (List Nat)) : Except GoErr (List Info) :=
  match readAll with
  | .error e => .error (.msg e)
  | .ok data =>
    match verifyHMAC tag data with
    | .error e => .error (.msg e)
    | .ok payload =>
      match unm payload with
      | .error e => .error (.msg ("cannot unmarshal cached list results: " ++ e))
      | .ok blocks => .ok blocks

/-- Lines 125-137 of `listIndexBlocks`: list from the backend; on success
marshal the result (`mar` is the abstract `json.Marshal`) and, when marshalling
succeeds, hand the HMAC-signed bytes to `writeFileAtomic` (write errors only
logged). -/
def listIndexBlocksFromSource (tag : List Nat → List Nat)
    (mar : List Info → Option (List Nat))
    (backend : Except GoErr (List Info)) : ListOutcome :=
  match backend with
  | .ok blocks => ⟨.ok blocks, true, (mar blocks).map (fun data => appendHMAC tag data)⟩
  | .error e => ⟨.error e, true, none⟩

/-- The reserved cache file name `listIndexBlocks` uses for a given `full`. -/
def listKey (directory : String) (full : Bool) : String :=
  cachedItemName directory (if full then "list-full" else "list-active")

/-- Embedding of `diskBlockCache.listIndexBlocks`.  `fs` is the `os.Open`
oracle, `now` the current UTC time and `ttl` equals `c.listCacheDuration`;
`backend` is the oracle for `listIndexBlocksFromStorage(c.st, full)`.  The
cached file is used exactly when it opens, stats, and
`now < modTime + ttl`; in that case `readBlocksFromCacheFile`'s outcome —
including any of its errors — is returned directly. -/
def listIndexBlocks (tag : List Nat → List Nat)
    (unm : List Nat → Except String (List Info))
    (mar : List Info → Option (List Nat))
    (directory : String) (full : Bool)
    (fs : String → OpenResult) (now ttl : Int)
    (backend : Except GoErr (List Info)) : ListOutcome :=
  match fs (listKey directory full) with
  | .opened f =>
    match f.modTimeStat with
    | some modTime =>
      if now < modTime + ttl then
        ⟨readBlocksFromCacheFile tag unm f.readAll, false, none⟩
      else
        listIndexBlocksFromSource tag mar backend
    | none => listIndexBlocksFromSource tag mar backend
  | .openError => listIndexBlocksFromSource tag mar backend

/-- One entry received from the `c.st.ListBlocks(indexBlockPrefix)` channel. -/
structure ListBlockEvent where
  blockID : String
  length : Int
  timeStamp : Int
  error : Option GoErr
deriving DecidableEq, Repr

/-- The `Info` record `readBlocksFromSource` appends for one channel entry. -/
def toInfo (e : ListBlockEvent) : Info :=
  ⟨e.blockID, e.length, e.timeStamp⟩

/-- The loop of `diskBlockCache.readBlocksFromSource`, with the running
`numCompactions` counter made explicit.  `isCompacted` is the abstract
`getCompactedTimestamp(...) ok` test (that function lives outside this file
set); `maxCompactions` is a Go `int`.  An entry is always appended before the
compaction counter is checked; on `numCompactions >= maxCompactions` the loop
breaks; an entry carrying an error aborts with `nil, err`. -/
def readBlocksFromSourceAux (isCompacted : String → Bool) (maxCompactions : Int) :
    Nat → List ListBlockEvent → Except GoErr (List Info)
  | _, [] => .ok []
  | numCompactions, e :: rest =>
    match e.error with
    | some err => .error err
    | none =>
      if isCompacted e.blockID then
        if ((numCompactions : Int) + 1) ≥ maxCompactions then
          .ok [toInfo e]
        else
          match readBlocksFromSourceAux isCompacted maxCompactions (numCompactions + 1) rest with
          | .error err => .error err
          | .ok l => .ok (toInfo e :: l)
      else
        match readBlocksFromSourceAux isCompacted maxCompactions numCompactions rest with
        | .error err => .error err
        | .ok l => .ok (toInfo e :: l)

/-- Embedding of `diskBlockCache.readBlocksFromSource` over the finite sequence
of channel entries the backend produces. -/
def readBlocksFromSource (isCompacted : String → Bool) (maxCompactions : Int)
    (events : List ListBlockEvent) : Except GoErr (List Info) :=
  readBlocksFromSourceAux isCompacted maxCompactions 0 events

/-- Spec-side helper: the portion of the event stream up to and including the
first compacted-named entry (the whole stream when none exists). -/
def takeThroughFirstCompacted (isCompacted : String → Bool) :
    List ListBlockEvent → List ListBlockEvent
  | [] => []
  | e :: rest =>
    if isCompacted e.blockID then [e]
    else e :: takeThroughFirstCompacted isCompacted rest

/-- Number of compacted-named entries in a result list. -/
def countCompacted (isCompacted : String → Bool) (l : List Info) : Nat :=
  (l.filter (fun i => isCompacted i.blockID)).length

/-- One `os.FileInfo` as `sweepDirectory` consumes it from `ioutil.ReadDir`:
name, size and modification time (as an integer instant). -/
structure DirEntry where
  name : String
  size : Int
  modTime : Int
deriving DecidableEq, Repr

/-- `strings.HasSuffix(name, cachedSuffix)`. -/
def hasCachedSuffix (s : String) : Bool :=
  cachedSuffix.data.isSuffixOf s.data

/-- The comparison `sort.Slice` is given in `sweepDirectory`:
`items[i].ModTime().After(items[j].ModTime())`, i.e. most recent first
(ties are left unspecified by Go's unstable sort; any order consistent with
the relation is a faithful model). -/
def byModTimeDesc (a b : DirEntry) : Prop :=
  b.modTime ≤ a.modTime

instance : DecidableRel byModTimeDesc :=
  fun a b => Int.decLe b.modTime a.modTime

instance : IsTotal DirEntry byModTimeDesc :=
  ⟨fun a b => le_total b.modTime a.modTime⟩

instance : IsTrans DirEntry byModTimeDesc :=
  ⟨fun _ _ _ h1 h2 => le_trans h2 h1⟩

/-- The directory listing ordered as the sweep walks it. -/
def sortByModTimeDesc (items : List DirEntry) : List DirEntry :=
  List.insertionSort byModTimeDesc items

/-- The walk of `sweepDirectory` (lines 288-302): entries without the cache
suffix are skipped; a cache entry is deleted when the running retained total
already exceeds the budget, and otherwise retained, its size added to the
total.  Returns `(retained cache entries, deleted cache entries)`. -/
def sweepLoop (maxSizeBytes : Int) : Int → List DirEntry → List DirEntry × List DirEntry
  | _, [] => ([], [])
  | totalRetainedSize, it :: rest =>
    if hasCachedSuffix it.name then
      if totalRetainedSize > maxSizeBytes then
        ((sweepLoop maxSizeBytes totalRetainedSize rest).1,
          it :: (sweepLoop maxSizeBytes totalRetainedSize rest).2)
      else
        (it :: (sweepLoop maxSizeBytes (totalRetainedSize + it.size) rest).1,
          (sweepLoop maxSizeBytes (totalRetainedSize + it.size) rest).2)
    else
      sweepLoop maxSizeBytes totalRetainedSize rest

/-- Embedding of `diskBlockCache.sweepDirectory` on a given directory listing:
with `maxSizeBytes == 0` it returns before looking at any file (no eviction);
otherwise it sorts by modification time descending and walks.  Returns
`(retained cache entries, deleted cache entries)`. -/
def sweepDirectory (maxSizeBytes : Int) (items : List DirEntry) :
    List DirEntry × List DirEntry :=
  if maxSizeBytes = 0 then
    (items.filter (fun it => hasCachedSuffix it.name), [])
  else
    sweepLoop maxSizeBytes 0 (sortByModTimeDesc items)

/-- The cache-suffixed entries in the order the sweep examines them. -/
def sweptOrder (items : List DirEntry) : List DirEntry :=
  (sortByModTimeDesc items).filter (fun it => hasCachedSuffix it.name)

/-- Total size of a list of directory entries. -/
def sizeSum (l : List DirEntry) : Int :=
  (l.map DirEntry.size).sum

/-- Spec-side count of how many leading entries the walk retains, starting
from running total `t`. -/
def keepCount (maxSizeBytes : Int) : Int → List DirEntry → Nat
  | _, [] => 0
  | t, it :: rest =>
    if t > maxSizeBytes then 0
    else keepCount maxSizeBytes (t + it.size) rest + 1

/-- `treeNode` from `workshare_test.go`: an integer value and a list of
children. -/
inductive TreeNode where
  | node (value : Int) (children : List TreeNode)
deriving Repr

/-- `buildTree(level)`: a node of value 1 with `level` children, each
`buildTree(level-1)` (`level <= 0` gives a leaf; the test only uses
non-negative levels, modelled by `Nat`). -/
def buildTree : Nat → TreeNode
  | 0 => .node 1 []
  | l + 1 => .node 1 (List.replicate (l + 1) (buildTree l))

mutual

/-- Modelled from the spec: the `workshare` package (`Pool`, `AsyncGroup`) is
not among the given source files; only its test harness is.  Per spec §4.2/§5,
`AsyncGroup.CanShareWork` is an advisory, racy load heuristic consulted once
per (call frame, child); `RunAsync` runs the given dispatch function — here
`dispatchComputeTreeSumRequest`, which recursively calls `computeTreeSum` on
the child — on some worker, communicating the result through the request
record; `Wait` joins every dispatched request of the frame and the caller then
folds their results into the total.  Since each child is examined exactly once,
at a unique position in the tree, every possible schedule of share decisions is
captured by a Boolean oracle on the child's path (list of child indexes from
the root).  Parallel execution is sequentialised: each offloaded subtree's sum
is computed independently and summed at the `Wait` join, which agrees with the
happens-before contract of §4.2.  The error channel of `computeTreeSum` is
omitted: no operation in this harness ever produces an error.

`computeTreeSum share p n` is `computeTreeSum(w, n)` for the node at path `p`:
the inline phase adds the sums of children the oracle keeps inline, the wait
phase adds the results of the dispatched requests. -/
def computeTreeSum (share : List Nat → Bool) (p : List Nat) : TreeNode → Int
  | .node value children =>
    value + inlinePhase share p 0 children + waitPhase share p 0 children

/-- The first loop of `computeTreeSum`: children whose `CanShareWork` answer is
`false` are summed inline. -/
def inlinePhase (share : List Nat → Bool) (p : List Nat) (i : Nat) :
    List TreeNode → Int
  | [] => 0
  | c :: rest =>
    (if share (p ++ [i]) then 0 else computeTreeSum share (p ++ [i]) c) +
      inlinePhase share p (i + 1) rest

/-- The `cs.Wait()` loop of `computeTreeSum`: dispatched children contribute
the result their `dispatchComputeTreeSumRequest` stored, i.e. the recursive
`computeTreeSum` of the child. -/
def waitPhase (share : List Nat → Bool) (p : List Nat) (i : Nat) :
    List TreeNode → Int
  | [] => 0
  | c :: rest =>
    (if share (p ++ [i]) then computeTreeSum share (p ++ [i]) c else 0) +
      waitPhase share p (i + 1) rest

end

/-- Modelled from the spec: `CanShareWork(pool)` is `true` only while the live
worker count is below capacity and always `false` when capacity is 0; `active`
gives the (racy, advisory) live worker count observed at each decision
point. -/
def capacityShare (capacity : Nat) (active : List Nat → Nat) :
    List Nat → Bool :=
  fun p => active p < capacity

mutual

/-- The deterministic structural sum of a tree: every node contributes its
value. -/
def sumTree : TreeNode → Int
  | .node value children => value + sumTreeList children

/-- Structural sum of a list of trees. -/
def sumTreeList : List TreeNode → Int
  | [] => 0
  | c :: rest => sumTree c + sumTreeList rest

end

theorem phases_eq_sumTreeList (share : List Nat → Bool) :
    ∀ (l : List TreeNode) (p : List Nat) (i : Nat),
      (∀ c ∈ l, ∀ p', computeTreeSum share p' c = sumTree c) →
      inlinePhase share p i l + waitPhase share p i l = sumTreeList l := by
  intro l
  induction l with
  | nil => intro p i _; simp [inlinePhase, waitPhase, sumTreeList]
  | cons c rest ih =>
    intro p i h
    have hc := h c (by simp) (p ++ [i])
    have hr := ih p (i + 1) (fun c' hc' p' => h c' (by simp [hc']) p')
    rw [inlinePhase, waitPhase, sumTreeList, ← hr, hc]
    by_cases hs : share (p ++ [i]) <;> simp [hs] <;> ring

theorem computeTreeSum_eq_sumTree_bounded (share : List Nat → Bool) :
    ∀ (n : Nat) (t : TreeNode), sizeOf t ≤ n → ∀ p,
      computeTreeSum share p t = sumTree t := by
  intro n
  induction n with
  | zero =>
    intro t ht p
    exfalso
    cases t with
    | node v children => simp at ht
  | succ n ih =>
    intro t ht p
    cases t with
    | node v children =>
      have hch : ∀ c ∈ children, ∀ p', computeTreeSum share p' c = sumTree c := by
        intro c hcmem p'
        refine ih c ?_ p'
        have h1 : sizeOf c < sizeOf children := List.sizeOf_lt_of_mem hcmem
        have h2 : sizeOf (TreeNode.node v children) = 1 + sizeOf v + sizeOf children := by
          simp
        omega
      rw [computeTreeSum, sumTree, ← phases_eq_sumTreeList share children p 0 hch]
      ring

theorem computeTreeSum_eq_sumTree (share : List Nat → Bool) (p : List Nat)
    (t : TreeNode) : computeTreeSum share p t = sumTree t :=
  computeTreeSum_eq_sumTree_bounded share (sizeOf t) t le_rfl p

theorem sumTreeList_replicate (k : Nat) (t : TreeNode) :
    sumTreeList (List.replicate k t) = (k : Int) * sumTree t := by
  induction k with
  | zero => simp [sumTreeList]
  | succ k ih =>
    rw [List.replicate_succ, sumTreeList, ih]
    push_cast
    ring

theorem sumTree_buildTree_succ (k : Nat) :
    sumTree (buildTree (k + 1)) = 1 + ((k : Int) + 1) * sumTree (buildTree k) := by
  rw [buildTree, sumTree, sumTreeList_replicate]
  push_cast
  ring

theorem sumTree_buildTree_six : sumTree (buildTree 6) = 1957 := by
  have h0 : sumTree (buildTree 0) = 1 := by
    rw [buildTree, sumTree, sumTreeList]
    ring
  have h1 := sumTree_buildTree_succ 0
  have h2 := sumTree_buildTree_succ 1
  have h3 := sumTree_buildTree_succ 2
  have h4 := sumTree_buildTree_succ 3
  have h5 := sumTree_buildTree_succ 4
  have h6 := sumTree_buildTree_succ 5
  norm_num at h1 h2 h3 h4 h5 h6
  omega

/-- Claim C9: `computeTreeSum` applied to `buildTree(6)` returns 1957 (the
node count, each node contributing value 1) under every possible schedule of
share-versus-inline decisions — in particular under any pool capacity
(0, 1, 10, ...) and any observed live-worker counts — so the dispatch decision
never changes the returned sum. -/
theorem computeTreeSum_buildTree6_every_schedule :
    (∀ (share : List Nat → Bool) (p : List Nat),
        computeTreeSum share p (buildTree 6) = 1957) ∧
    (∀ (capacity : Nat) (active : List Nat → Nat) (p : List Nat),
        computeTreeSum (capacityShare capacity active) p (buildTree 6) = 1957) := by
  constructor
  · intro share p
    rw [computeTreeSum_eq_sumTree, sumTree_buildTree_six]
  · intro capacity active p
    rw [computeTreeSum_eq_sumTree, sumTree_buildTree_six]

@[simp]
theorem sizeSum_nil : sizeSum [] = 0 := rfl

@[simp]
theorem sizeSum_cons (a : DirEntry) (l : List DirEntry) :
    sizeSum (a :: l) = a.size + sizeSum l := by
  simp [sizeSum]

theorem sizeSum_append (l1 l2 : List DirEntry) :
    sizeSum (l1 ++ l2) = sizeSum l1 + sizeSum l2 := by
  simp [sizeSum]

theorem sweepLoop_over_budget (B t : Int) (ht : t > B) :
    ∀ l : List DirEntry, (∀ e ∈ l, hasCachedSuffix e.name = true) →
      sweepLoop B t l = ([], l) := by
  intro l
  induction l with
  | nil => intro _; rfl
  | cons it rest ih =>
    intro h
    have hit : hasCachedSuffix it.name = true := h it (by simp)
    have hrest := ih (fun e he => h e (by simp [he]))
    rw [sweepLoop, if_pos hit, if_pos ht, hrest]

theorem sweepLoop_eq_take_drop (B : Int) :
    ∀ (l : List DirEntry) (t : Int), (∀ e ∈ l, hasCachedSuffix e.name = true) →
      sweepLoop B t l = (l.take (keepCount B t l), l.drop (keepCount B t l)) := by
  intro l
  induction l with
  | nil => intro t _; rfl
  | cons it rest ih =>
    intro t h
    have hit : hasCachedSuffix it.name = true := h it (by simp)
    have hrest : ∀ e ∈ rest, hasCachedSuffix e.name = true :=
      fun e he => h e (by simp [he])
    by_cases ht : t > B
    · rw [sweepLoop, if_pos hit, if_pos ht, keepCount, if_pos ht,
        sweepLoop_over_budget B t ht rest hrest]
      simp
    · rw [sweepLoop, if_pos hit, if_neg ht, keepCount, if_neg ht,
        ih (t + it.size) hrest]
      simp

theorem sweepLoop_filter (B : Int) :
    ∀ (l : List DirEntry) (t : Int),
      sweepLoop B t l =
        sweepLoop B t (l.filter (fun it => hasCachedSuffix it.name)) := by
  intro l
  induction l with
  | nil => intro t; rfl
  | cons it rest ih =>
    intro t
    by_cases hit : hasCachedSuffix it.name
    · rw [List.filter_cons_of_pos (by simpa using hit)]
      by_cases ht : t > B
      · rw [sweepLoop, if_pos hit, if_pos ht, sweepLoop, if_pos hit, if_pos ht,
          ih t]
      · rw [sweepLoop, if_pos hit, if_neg ht, sweepLoop, if_pos hit, if_neg ht,
          ih (t + it.size)]
    · rw [List.filter_cons_of_neg (by simpa using hit), sweepLoop, if_neg hit,
        ih t]

theorem keepCount_le_length (B : Int) :
    ∀ (l : List DirEntry) (t : Int), keepCount B t l ≤ l.length := by
  intro l
  induction l with
  | nil => intro t; simp [keepCount]
  | cons it rest ih =>
    intro t
    rw [keepCount]
    by_cases ht : t > B
    · simp [ht]
    · have := ih (t + it.size)
      simp only [if_neg ht, List.length_cons]
      omega

theorem keepCount_prefix_le (B : Int) :
    ∀ (l : List DirEntry) (t : Int) (k : Nat), k < keepCount B t l →
      t + sizeSum (l.take k) ≤ B := by
  intro l
  induction l with
  | nil => intro t k hk; simp [keepCount] at hk
  | cons it rest ih =>
    intro t k hk
    rw [keepCount] at hk
    by_cases ht : t > B
    · rw [if_pos ht] at hk; omega
    · rw [if_neg ht] at hk
      match k with
      | 0 => simp; omega
      | k' + 1 =>
        have := ih (t + it.size) k' (by omega)
        simp only [List.take_succ_cons, sizeSum_cons]
        omega

theorem keepCount_exceeds (B : Int) :
    ∀ (l : List DirEntry) (t : Int), keepCount B t l < l.length →
      B < t + sizeSum (l.take (keepCount B t l)) := by
  intro l
  induction l with
  | nil => intro t ht; simp at ht
  | cons it rest ih =>
    intro t hlt
    rw [keepCount] at hlt ⊢
    by_cases ht : t > B
    · rw [if_pos ht]
      simp
      omega
    · rw [if_neg ht] at hlt ⊢
      have := ih (t + it.size) (by simpa using hlt)
      simp only [List.take_succ_cons, sizeSum_cons]
      omega

theorem keepCount_pos (B : Int) (hB : 0 ≤ B) (l : List DirEntry) (hl : l ≠ []) :
    0 < keepCount B 0 l := by
  match l with
  | [] => exact absurd rfl hl
  | it :: rest =>
    rw [keepCount, if_neg (by omega)]
    omega

theorem sweptOrder_all_cached (items : List DirEntry) :
    ∀ e ∈ sweptOrder items, hasCachedSuffix e.name = true := by
  intro e he
  simpa using (List.mem_filter.mp he).2

theorem sweepDirectory_eq_take_drop (B : Int) (items : List DirEntry)
    (hB : B ≠ 0) :
    sweepDirectory B items =
      ((sweptOrder items).take (keepCount B 0 (sweptOrder items)),
        (sweptOrder items).drop (keepCount B 0 (sweptOrder items))) := by
  rw [sweepDirectory, if_neg hB, sweepLoop_filter]
  exact sweepLoop_eq_take_drop B (sweptOrder items) 0 (sweptOrder_all_cached items)

/-- Claim C3: with budget `B > 0` the sweep walks the cache-suffixed entries
in modification-time-descending order and retains an entry exactly while the
running total of already-retained sizes is at or below `B` (the budget check
precedes adding the entry's own size); every later entry is deleted outright.
Formally: the retained entries are the prefix `take n` and the deleted entries
the matching suffix `drop n` of the walk order, where every proper prefix of
the retained entries has cumulative size at most `B` and, when something is
deleted, the whole retained prefix already exceeds `B`; the first (most
recent) cache entry is always retained, with no condition on its size; the
walk order is sorted by modification time descending; and with budget 0 no
file is ever removed. -/
theorem sweepDirectory_walk_characterization (B : Int) (items : List DirEntry)
    (hB : 0 < B) :
    (∃ n, n ≤ (sweptOrder items).length ∧
      sweepDirectory B items =
        ((sweptOrder items).take n, (sweptOrder items).drop n) ∧
      (∀ k, k < n → sizeSum ((sweptOrder items).take k) ≤ B) ∧
      (n < (sweptOrder items).length → B < sizeSum ((sweptOrder items).take n)) ∧
      (sweptOrder items ≠ [] → 0 < n)) ∧
    List.Sorted byModTimeDesc (sortByModTimeDesc items) ∧
    (sweepDirectory 0 items).2 = [] := by
  refine ⟨⟨keepCount B 0 (sweptOrder items), keepCount_le_length B _ 0,
    sweepDirectory_eq_take_drop B items (by omega), ?_, ?_, ?_⟩, ?_, ?_⟩
  · intro k hk
    have := keepCount_prefix_le B (sweptOrder items) 0 k hk
    omega
  · intro hlt
    have := keepCount_exceeds B (sweptOrder items) 0 hlt
    omega
  · exact keepCount_pos B (by omega) (sweptOrder items)
  · simpa [sortByModTimeDesc] using
      (List.sorted_insertionSort byModTimeDesc items)
  · rw [sweepDirectory, if_pos rfl]

theorem sweepDirectory_walk_characterization_witness :
    0 < (10 : Int) ∧
    ((∃ n, n ≤ (sweptOrder [⟨"a.cached", 6, 2⟩, ⟨"b.cached", 6, 1⟩]).length ∧
      sweepDirectory 10 [⟨"a.cached", 6, 2⟩, ⟨"b.cached", 6, 1⟩] =
        ((sweptOrder [⟨"a.cached", 6, 2⟩, ⟨"b.cached", 6, 1⟩]).take n,
          (sweptOrder [⟨"a.cached", 6, 2⟩, ⟨"b.cached", 6, 1⟩]).drop n) ∧
      (∀ k, k < n →
        sizeSum ((sweptOrder [⟨"a.cached", 6, 2⟩, ⟨"b.cached", 6, 1⟩]).take k) ≤ 10) ∧
      (n < (sweptOrder [⟨"a.cached", 6, 2⟩, ⟨"b.cached", 6, 1⟩]).length →
        10 < sizeSum ((sweptOrder [⟨"a.cached", 6, 2⟩, ⟨"b.cached", 6, 1⟩]).take n)) ∧
      (sweptOrder [⟨"a.cached", 6, 2⟩, ⟨"b.cached", 6, 1⟩] ≠ [] → 0 < n)) ∧
    List.Sorted byModTimeDesc
      (sortByModTimeDesc [⟨"a.cached", 6, 2⟩, ⟨"b.cached", 6, 1⟩]) ∧
    (sweepDirectory 0 [⟨"a.cached", 6, 2⟩, ⟨"b.cached", 6, 1⟩]).2 = []) :=
  ⟨by decide,
    sweepDirectory_walk_characterization 10
      [⟨"a.cached", 6, 2⟩, ⟨"b.cached", 6, 1⟩] (by decide)⟩

/-- Claim C2 counterexample: with budget `B = 10` and two cache files of size
6 each (most recent first), the sweep retains both files — cumulative size 12,
exceeding the budget — whereas the claim says the retained set is the largest
recency prefix with cumulative size at most `B` (here only the first file) and
that the total retained size never exceeds `B`. -/
theorem sweepDirectory_budget_overshoot_ce :
    sweepDirectory 10 [⟨"a.cached", 6, 2⟩, ⟨"b.cached", 6, 1⟩] =
      ([⟨"a.cached", 6, 2⟩, ⟨"b.cached", 6, 1⟩], []) ∧
    ¬ sizeSum (sweepDirectory 10 [⟨"a.cached", 6, 2⟩, ⟨"b.cached", 6, 1⟩]).1 ≤ 10 := by
  decide

/-- Claim C2 as amended: after a sweep with budget `B > 0` the retained cache
files are the maximal recency prefix in which each file is admitted while the
cumulative size of the files retained before it is at most `B` (the budget
check precedes adding the file's own size); consequently the total retained
size need not stay under `B`, but exceeds it by at most the size of the last
retained file. -/
theorem sweepDirectory_retained_amended (B : Int) (items : List DirEntry)
    (hB : 0 < B) :
    ∃ n, n ≤ (sweptOrder items).length ∧
      sweepDirectory B items =
        ((sweptOrder items).take n, (sweptOrder items).drop n) ∧
      (∀ k, k < n → sizeSum ((sweptOrder items).take k) ≤ B) ∧
      (∀ m, m ≤ (sweptOrder items).length →
        (∀ k, k < m → sizeSum ((sweptOrder items).take k) ≤ B) → m ≤ n) ∧
      ((sweepDirectory B items).1 = [] ∨
        ∃ rs last, (sweepDirectory B items).1 = rs ++ [last] ∧
          sizeSum (sweepDirectory B items).1 ≤ B + last.size) := by
  refine ⟨keepCount B 0 (sweptOrder items), keepCount_le_length B _ 0,
    sweepDirectory_eq_take_drop B items (by omega), ?_, ?_, ?_⟩
  · intro k hk
    have := keepCount_prefix_le B (sweptOrder items) 0 k hk
    omega
  · intro m hm hall
    by_contra hmn
    push_neg at hmn
    have hlt : keepCount B 0 (sweptOrder items) < (sweptOrder items).length := by
      omega
    have h1 := keepCount_exceeds B (sweptOrder items) 0 hlt
    have h2 := hall (keepCount B 0 (sweptOrder items)) (by omega)
    omega
  · rw [sweepDirectory_eq_take_drop B items (by omega)]
    match hn : keepCount B 0 (sweptOrder items) with
    | 0 => exact Or.inl (by simp)
    | n' + 1 =>
      refine Or.inr ?_
      have hlen : n' + 1 ≤ (sweptOrder items).length := by
        have := keepCount_le_length B (sweptOrder items) 0
        omega
      have hget : n' < (sweptOrder items).length := by omega
      have htake : (sweptOrder items).take (n' + 1) =
          (sweptOrder items).take n' ++ [(sweptOrder items)[n']] := by
        rw [← List.take_concat_get (sweptOrder items) n' hget,
          List.concat_eq_append]
      refine ⟨(sweptOrder items).take n', (sweptOrder items)[n'], htake, ?_⟩
      have hpre : sizeSum ((sweptOrder items).take n') ≤ B := by
        have := keepCount_prefix_le B (sweptOrder items) 0 n' (by omega)
        omega
      have hstep : sizeSum ((sweptOrder items).take (n' + 1)) =
          sizeSum ((sweptOrder items).take n') +
            ((sweptOrder items)[n']).size := by
        rw [htake, sizeSum_append, sizeSum_cons, sizeSum_nil]
        ring
      show sizeSum ((sweptOrder items).take (n' + 1)) ≤
        B + ((sweptOrder items)[n']).size
      omega

theorem sweepDirectory_retained_amended_witness :
    0 < (5 : Int) ∧
    ∃ n, n ≤ (sweptOrder [⟨"x.cached", 3, 3⟩, ⟨"y.cached", 3, 2⟩, ⟨"z.cached", 9, 1⟩]).length ∧
      sweepDirectory 5 [⟨"x.cached", 3, 3⟩, ⟨"y.cached", 3, 2⟩, ⟨"z.cached", 9, 1⟩] =
        ((sweptOrder [⟨"x.cached", 3, 3⟩, ⟨"y.cached", 3, 2⟩, ⟨"z.cached", 9, 1⟩]).take n,
          (sweptOrder [⟨"x.cached", 3, 3⟩, ⟨"y.cached", 3, 2⟩, ⟨"z.cached", 9, 1⟩]).drop n) ∧
      (∀ k, k < n →
        sizeSum ((sweptOrder [⟨"x.cached", 3, 3⟩, ⟨"y.cached", 3, 2⟩, ⟨"z.cached", 9, 1⟩]).take k) ≤ 5) ∧
      (∀ m, m ≤ (sweptOrder [⟨"x.cached", 3, 3⟩, ⟨"y.cached", 3, 2⟩, ⟨"z.cached", 9, 1⟩]).length →
        (∀ k, k < m →
          sizeSum ((sweptOrder [⟨"x.cached", 3, 3⟩, ⟨"y.cached", 3, 2⟩, ⟨"z.cached", 9, 1⟩]).take k) ≤ 5) →
        m ≤ n) ∧
      ((sweepDirectory 5 [⟨"x.cached", 3, 3⟩, ⟨"y.cached", 3, 2⟩, ⟨"z.cached", 9, 1⟩]).1 = [] ∨
        ∃ rs last,
          (sweepDirectory 5 [⟨"x.cached", 3, 3⟩, ⟨"y.cached", 3, 2⟩, ⟨"z.cached", 9, 1⟩]).1 =
            rs ++ [last] ∧
          sizeSum (sweepDirectory 5 [⟨"x.cached", 3, 3⟩, ⟨"y.cached", 3, 2⟩, ⟨"z.cached", 9, 1⟩]).1 ≤
            5 + last.size) :=
  ⟨by decide,
    sweepDirectory_retained_amended 5
      [⟨"x.cached", 3, 3⟩, ⟨"y.cached", 3, 2⟩, ⟨"z.cached", 9, 1⟩] (by decide)⟩

/-- A concrete 32-byte tag function, standing in for HMAC-SHA256 under one
fixed secret, used to instantiate hypotheses at concrete inputs. -/
def tag0 : List Nat → List Nat :=
  fun _ => List.replicate sha256Size 0

theorem verifyHMAC_appendHMAC_witness :
    verifyHMAC tag0 (appendHMAC tag0 []) = .ok [] :=
  verifyHMAC_appendHMAC tag0 (fun d => by simp [tag0]) []

/-- Claim C8 counterexample: at `buffer = []`, `offset = -1`, `length = -1`
the claim says the suffix `buffer[offset:]` is returned, but the Go slice
expression panics on the negative offset (modelled as `none`) — no value and
no error is returned. -/
theorem applyOffsetAndLength_negative_offset_ce :
    applyOffsetAndLength [] (-1) (-1) = none := by
  decide

/-- Claim C8 as amended: for every buffer (of Go slice length, under `2^63`),
**non-negative** offset, and length in `int64` range, `applyOffsetAndLength`
returns: an out-of-bounds error if `offset > len(buffer)`; otherwise the
suffix `buffer[offset:]` (possibly empty — in particular
`offset = len(buffer)` with `length < 0` yields the empty slice, not an
error) if `length < 0`; otherwise, **provided the `int64` sum
`offset + length` does not overflow**, an out-of-bounds error if
`offset + length > len(buffer)` and otherwise exactly the window
`buffer[offset : offset+length]`, which may be empty; when the sum does
overflow (`offset + length ≥ 2^63`), the wrapped sum is negative, the bounds
check passes, and the slice expression panics instead of returning. -/
theorem applyOffsetAndLength_amended (b : List Nat) (offset length : Int)
    (hoff : 0 ≤ offset) (hlen64 : length < 2 ^ 63)
    (hb64 : (b.length : Int) < 2 ^ 63) :
    ((b.length : Int) < offset →
      applyOffsetAndLength b offset length = some (.error ("offset of bounds"))) ∧
    (offset ≤ (b.length : Int) → length < 0 →
      applyOffsetAndLength b offset length = some (.ok (b.drop offset.toNat))) ∧
    (offset ≤ (b.length : Int) → 0 ≤ length → offset + length < 2 ^ 63 →
      (b.length : Int) < offset + length →
      applyOffsetAndLength b offset length = some (.error ("length of bounds"))) ∧
    (offset ≤ (b.length : Int) → 0 ≤ length → offset + length ≤ (b.length : Int) →
      applyOffsetAndLength b offset length =
        some (.ok ((b.drop offset.toNat).take length.toNat))) ∧
    (offset = (b.length : Int) → length < 0 →
      applyOffsetAndLength b offset length = some (.ok [])) ∧
    (offset ≤ (b.length : Int) → 0 ≤ length → 2 ^ 63 ≤ offset + length →
      applyOffsetAndLength b offset length = none) := by
  have hsuffix : offset ≤ (b.length : Int) → length < 0 →
      applyOffsetAndLength b offset length = some (.ok (b.drop offset.toNat)) := by
    intro h1 h2
    rw [applyOffsetAndLength, if_neg (by omega), if_pos h2, goSlice,
      if_pos ⟨hoff, by omega, le_rfl⟩]
    have htk : (b.drop offset.toNat).take ((b.length : Int) - offset).toNat =
        b.drop offset.toNat := by
      refine List.take_of_length_le ?_
      rw [List.length_drop]
      omega
    rw [htk]
    rfl
  refine ⟨?_, hsuffix, ?_, ?_, ?_, ?_⟩
  · intro h1
    rw [applyOffsetAndLength, if_pos (by omega)]
  · intro h1 h2 h3 h4
    have hw : int64Wrap (offset + length) = offset + length := by
      simp only [int64Wrap]
      omega
    rw [applyOffsetAndLength, if_neg (by omega), if_neg (by omega), hw,
      if_pos (by omega)]
  · intro h1 h2 h3
    have hw : int64Wrap (offset + length) = offset + length := by
      simp only [int64Wrap]
      omega
    rw [applyOffsetAndLength, if_neg (by omega), if_neg (by omega), hw,
      if_neg (by omega), goSlice, if_pos ⟨hoff, by omega, h3⟩]
    have harg : (offset + length - offset).toNat = length.toNat := by omega
    rw [harg]
    rfl
  · intro h1 h2
    have := hsuffix (by omega) h2
    rw [this]
    have : b.drop offset.toNat = [] := by
      have : offset.toNat = b.length := by omega
      rw [this, List.drop_length]
    rw [this]
  · intro h1 h2 h3
    have hw : int64Wrap (offset + length) = offset + length - 2 ^ 64 := by
      simp only [int64Wrap]
      omega
    rw [applyOffsetAndLength, if_neg (by omega), if_neg (by omega), hw,
      if_neg (by omega), goSlice, if_neg (by rintro ⟨hA, hB, hC⟩; omega)]
    rfl

theorem applyOffsetAndLength_amended_witness :
    (0 ≤ (1 : Int) ∧ (2 : Int) ^ 63 - 1 < 2 ^ 63 ∧ ((3 : Nat) : Int) < 2 ^ 63 ∧
      0 ≤ (2 : Int) ^ 63 - 1 ∧ (2 : Int) ^ 63 ≤ 1 + (2 ^ 63 - 1)) ∧
    applyOffsetAndLength [1, 2, 3] 1 (-1) = some (.ok ([1, 2, 3].drop (1 : Int).toNat)) ∧
    applyOffsetAndLength [1, 2, 3] 1 (2 ^ 63 - 1) = none :=
  ⟨⟨by norm_num, by norm_num, by norm_num, by norm_num, by norm_num⟩,
    (applyOffsetAndLength_amended [1, 2, 3] 1 (-1) (by norm_num) (by norm_num)
      (by norm_num)).2.1 (by norm_num) (by norm_num),
    (applyOffsetAndLength_amended [1, 2, 3] 1 (2 ^ 63 - 1) (by norm_num)
      (by norm_num) (by norm_num)).2.2.2.2.2 (by norm_num) (by norm_num)
      (by norm_num)⟩

/-- Claim C5: when `getBlock` finds a local cache file for the virtual key
that is HMAC-valid, it returns the file's entire stored payload — the
requested `offset` and `length` are not applied to the cached bytes (the
outcome is the same for every offset and length) — and the backend is not
contacted (and no cache write happens). -/
theorem getBlock_cache_hit (tag : List Nat → List Nat) (directory : String)
    (fs : String → ReadFileResult)
    (backend : String → Int → Int → Except GoErr (List Nat))
    (virtualBlockID physicalBlockID : String) (b payload : List Nat)
    (hread : fs (cachedItemName directory virtualBlockID) = .ok b)
    (hver : verifyHMAC tag b = .ok payload) :
    ∀ offset length : Int,
      getBlock tag directory fs backend virtualBlockID physicalBlockID
          offset length =
        ⟨.ok payload, false, none⟩ := by
  intro offset length
  simp only [getBlock, hread, hver]

/-- Concrete cache-read oracle: every file holds the signed payload
`[1, 2, 3]`. -/
def fs0 : String → ReadFileResult :=
  fun _ => .ok (appendHMAC tag0 [1, 2, 3])

/-- Concrete backend oracle that always fails (never consulted on a cache
hit). -/
def backend0 : String → Int → Int → Except GoErr (List Nat) :=
  fun _ _ _ => .error (.msg ("backend failure"))

theorem getBlock_cache_hit_witness :
    getBlock tag0 "dir" fs0 backend0 "v" "p" 1 1 = ⟨.ok [1, 2, 3], false, none⟩ :=
  getBlock_cache_hit tag0 "dir" fs0 backend0 "v" "p"
    (appendHMAC tag0 [1, 2, 3]) [1, 2, 3] rfl (by decide) 1 1

/-- Claim C6: `putBlock` returns an error exactly when the backend `PutBlock`
fails; on a backend failure the local cache directory is left untouched (the
mirror write and the listing invalidation are both skipped); on backend
success it returns nil whether or not the best-effort cache mirror succeeded,
with both reserved listing cache entries (`list-full` and `list-active`)
removed. -/
theorem putBlock_backend_authoritative (tag : List Nat → List Nat)
    (directory : String) (backendErr : Option GoErr) (writeOk : Bool)
    (fs : String → Option (List Nat)) (blockID : String) (data : List Nat) :
    ((putBlock tag directory backendErr writeOk fs blockID data).2 =
      backendErr) ∧
    (∀ e, backendErr = some e →
      (putBlock tag directory backendErr writeOk fs blockID data).1 = fs) ∧
    (backendErr = none →
      (putBlock tag directory backendErr writeOk fs blockID data).1
          (cachedItemName directory "list-full") = none ∧
        (putBlock tag directory backendErr writeOk fs blockID data).1
          (cachedItemName directory "list-active") = none) := by
  refine ⟨?_, ?_, ?_⟩
  · cases backendErr <;> rfl
  · intro e he
    subst he
    rfl
  · intro he
    subst he
    constructor
    · by_cases h : cachedItemName directory "list-full" =
          cachedItemName directory "list-active" <;>
        simp [putBlock, deleteListCache, updateFs, h]
    · simp [putBlock, deleteListCache, updateFs]

theorem putBlock_backend_authoritative_witness :
    (putBlock tag0 "dir" none true (fun _ => none) "b" [1]).2 = none ∧
    (putBlock tag0 "dir" none true (fun _ => none) "b" [1]).1
      (cachedItemName "dir" "list-full") = none :=
  ⟨(putBlock_backend_authoritative tag0 "dir" none true
      (fun _ => none) "b" [1]).1,
    ((putBlock_backend_authoritative tag0 "dir" none true
      (fun _ => none) "b" [1]).2.2 rfl).1⟩

theorem readBlocksFromCacheFile_ok_iff (tag : List Nat → List Nat)
    (unm : List Nat → Except String (List Info))
    (readAll : Except String (List Nat)) (blocks : List Info) :
    readBlocksFromCacheFile tag unm readAll = .ok blocks ↔
      ∃ data payload, readAll = .ok data ∧ verifyHMAC tag data = .ok payload ∧
        unm payload = .ok blocks := by
  constructor
  · intro h
    cases readAll with
    | error e => simp [readBlocksFromCacheFile] at h
    | ok data =>
      cases hv : verifyHMAC tag data with
      | error e => simp [readBlocksFromCacheFile, hv] at h
      | ok payload =>
        cases hu : unm payload with
        | error e => simp [readBlocksFromCacheFile, hv, hu] at h
        | ok blocks2 =>
          simp only [readBlocksFromCacheFile, hv, hu, Except.ok.injEq] at h
          exact ⟨data, payload, rfl, hv, by rw [hu, h]⟩
  · rintro ⟨data, payload, h1, h2, h3⟩
    subst h1
    simp [readBlocksFromCacheFile, h2, h3]

theorem listIndexBlocksFromSource_backendCalled (tag : List Nat → List Nat)
    (mar : List Info → Option (List Nat)) (backend : Except GoErr (List Info)) :
    (listIndexBlocksFromSource tag mar backend).backendCalled = true := by
  cases backend <;> simp [listIndexBlocksFromSource]

/-- Concrete abstract JSON decoder that rejects every payload, as
`encoding/json` does for bytes that are not a JSON `[]Info` document. -/
def unm0 : List Nat → Except String (List Info) :=
  fun _ => .error ("bad json")

/-- Concrete abstract JSON encoder for listing snapshots (never consulted in
the scenarios below). -/
def mar0 : List Info → Option (List Nat) :=
  fun _ => none

/-- Claim C1 counterexample: a within-TTL listing cache file whose HMAC fails
to verify (here: 32 bytes of ones against a tag of zeros) makes
`listIndexBlocks` return the verification error itself to the caller; the
authoritative backend — which would have answered successfully — is never
consulted, contradicting the claimed demotion to a cache miss. -/
theorem listIndexBlocks_hmac_error_ce :
    listIndexBlocks tag0 unm0 mar0 "dir" true
        (fun _ => .opened ⟨some 0, .ok (List.replicate sha256Size 1)⟩) 0 1
        (.ok [⟨"i", 1, 1⟩]) =
      ⟨.error (.msg ("invalid data - corrupted")), false, none⟩ := by
  decide

/-- Claim C1 as amended: a locally cached file whose HMAC tag fails to verify
is treated exactly as a cache miss by `getBlock` — it falls through to the
authoritative backend (whose answer becomes the operation's result) and never
surfaces the verification error.  For `listIndexBlocks` this holds only when
the cached file is stale, unreadable or unstatable: a within-TTL cache file
whose HMAC fails to verify causes the verification error to be returned to
the caller directly, without falling through to the backend. -/
theorem hmac_failure_demotion
    (tag : List Nat → List Nat) (directory : String)
    (fs : String → ReadFileResult)
    (backend : String → Int → Int → Except GoErr (List Nat))
    (virtualBlockID physicalBlockID : String) (b : List Nat) (e : String)
    (offset length : Int)
    (hread : fs (cachedItemName directory virtualBlockID) = .ok b)
    (hver : verifyHMAC tag b = .error e)
    (tag2 : List Nat → List Nat) (unm : List Nat → Except String (List Info))
    (mar : List Info → Option (List Nat)) (dir2 : String) (full : Bool)
    (fs2 : String → OpenResult) (now ttl : Int)
    (backend2 : Except GoErr (List Info)) (f : OpenedFile) (mt : Int)
    (data : List Nat) (e2 : String)
    (hopen : fs2 (listKey dir2 full) = .opened f)
    (hstat : f.modTimeStat = some mt)
    (hfresh : now < mt + ttl)
    (hra : f.readAll = .ok data)
    (hver2 : verifyHMAC tag2 data = .error e2) :
    (getBlock tag directory fs backend virtualBlockID physicalBlockID
        offset length =
      getBlockFromSource tag backend physicalBlockID offset length ∧
      (getBlockFromSource tag backend physicalBlockID offset length).backendCalled =
        true ∧
      (getBlockFromSource tag backend physicalBlockID offset length).result =
        backend physicalBlockID offset length) ∧
    listIndexBlocks tag2 unm mar dir2 full fs2 now ttl backend2 =
      ⟨.error (.msg e2), false, none⟩ := by
  refine ⟨⟨?_, ?_, ?_⟩, ?_⟩
  · simp only [getBlock, hread, hver]
  · cases hb : backend physicalBlockID offset length with
    | ok v => simp [getBlockFromSource, hb]
    | error err => cases err <;> simp [getBlockFromSource, hb]
  · cases hb : backend physicalBlockID offset length with
    | ok v => simp [getBlockFromSource, hb]
    | error err => cases err <;> simp [getBlockFromSource, hb]
  · simp only [listIndexBlocks, hopen, hstat, if_pos hfresh,
      readBlocksFromCacheFile, hra, hver2]

theorem hmac_failure_demotion_witness :
    (getBlock tag0 "dir" (fun _ => .ok (List.replicate sha256Size 1))
        backend0 "v" "p" 0 (-1) =
      getBlockFromSource tag0 backend0 "p" 0 (-1)) ∧
    listIndexBlocks tag0 unm0 mar0 "dir" true
        (fun _ => .opened ⟨some 0, .ok (List.replicate sha256Size 1)⟩) 0 1
        (.ok []) =
      ⟨.error (.msg ("invalid data - corrupted")), false, none⟩ :=
  ⟨(hmac_failure_demotion tag0 "dir"
      (fun _ => .ok (List.replicate sha256Size 1)) backend0 "v" "p"
      (List.replicate sha256Size 1) "invalid data - corrupted" 0 (-1) rfl
      (by decide) tag0 unm0 mar0 "dir" true
      (fun _ => .opened ⟨some 0, .ok (List.replicate sha256Size 1)⟩) 0 1
      (.ok []) ⟨some 0, .ok (List.replicate sha256Size 1)⟩ 0
      (List.replicate sha256Size 1) "invalid data - corrupted" rfl rfl
      (by decide) rfl (by decide)).1.1,
    (hmac_failure_demotion tag0 "dir"
      (fun _ => .ok (List.replicate sha256Size 1)) backend0 "v" "p"
      (List.replicate sha256Size 1) "invalid data - corrupted" 0 (-1) rfl
      (by decide) tag0 unm0 mar0 "dir" true
      (fun _ => .opened ⟨some 0, .ok (List.replicate sha256Size 1)⟩) 0 1
      (.ok []) ⟨some 0, .ok (List.replicate sha256Size 1)⟩ 0
      (List.replicate sha256Size 1) "invalid data - corrupted" rfl rfl
      (by decide) rfl (by decide)).2⟩

/-- Claim C7 counterexample: a listing cache file that exists, is HMAC-valid
and is within `listCacheDuration` but whose payload does not JSON-unmarshal:
`listIndexBlocks` returns the unmarshal error — it serves no decoded results
(and does not invoke the backend), although the claimed conditions for a
cache-served listing all hold. -/
theorem listIndexBlocks_unmarshal_error_ce :
    listIndexBlocks tag0 unm0 mar0 "dir" true
        (fun _ => .opened ⟨some 0, .ok (appendHMAC tag0 [7])⟩) 0 1 (.ok []) =
      ⟨.error (.msg ("cannot unmarshal cached list results: bad json")),
        false, none⟩ := by
  decide

/-- Claim C7 as amended: `listIndexBlocks` serves decoded results from the
local cache file, without invoking the backend listing, exactly when the file
for the reserved key opens, its stat succeeds, its modification-time age is
within `listCacheDuration`, its HMAC verifies, and its payload unmarshals
(first conjunct, an equivalence); whenever the call answers without the
backend, the cached file's age is strictly within `listCacheDuration` (second
conjunct: cache-served listings are never more than `listCacheDuration`
stale); and when the file is present and statable but its TTL has elapsed,
the backend is invoked afresh and, on success with a marshallable result, the
new signed snapshot is handed to the best-effort cache write under the same
key (third conjunct). -/
theorem listIndexBlocks_cache_dispatch (tag : List Nat → List Nat)
    (unm : List Nat → Except String (List Info))
    (mar : List Info → Option (List Nat)) (directory : String) (full : Bool)
    (fs : String → OpenResult) (now ttl : Int)
    (backend : Except GoErr (List Info)) :
    (∀ blocks : List Info,
      listIndexBlocks tag unm mar directory full fs now ttl backend =
          ⟨.ok blocks, false, none⟩ ↔
        ∃ f mt data payload,
          fs (listKey directory full) = .opened f ∧
          f.modTimeStat = some mt ∧ f.readAll = .ok data ∧
          now < mt + ttl ∧ verifyHMAC tag data = .ok payload ∧
          unm payload = .ok blocks) ∧
    (∀ f mt, fs (listKey directory full) = .opened f →
      f.modTimeStat = some mt →
      (listIndexBlocks tag unm mar directory full fs now ttl backend).backendCalled =
        false →
      now - mt < ttl) ∧
    (∀ f mt, fs (listKey directory full) = .opened f →
      f.modTimeStat = some mt → ¬ now < mt + ttl →
      (listIndexBlocks tag unm mar directory full fs now ttl backend).backendCalled =
        true ∧
      ∀ blocks data, backend = .ok blocks → mar blocks = some data →
        (listIndexBlocks tag unm mar directory full fs now ttl backend).cacheWrite =
          some (appendHMAC tag data)) := by
  refine ⟨?_, ?_, ?_⟩
  · intro blocks
    constructor
    · intro h
      cases hfs : fs (listKey directory full) with
      | openError =>
        exfalso
        simp only [listIndexBlocks, hfs] at h
        have hc := listIndexBlocksFromSource_backendCalled tag mar backend
        rw [h] at hc
        simp at hc
      | opened f =>
        cases hstat : f.modTimeStat with
        | none =>
          exfalso
          simp only [listIndexBlocks, hfs, hstat] at h
          have hc := listIndexBlocksFromSource_backendCalled tag mar backend
          rw [h] at hc
          simp at hc
        | some mt =>
          by_cases hfr : now < mt + ttl
          · simp only [listIndexBlocks, hfs, hstat, if_pos hfr] at h
            have hres : readBlocksFromCacheFile tag unm f.readAll = .ok blocks := by
              have := congrArg ListOutcome.result h
              simpa using this
            obtain ⟨data, payload, hra, hv, hu⟩ :=
              (readBlocksFromCacheFile_ok_iff tag unm f.readAll blocks).mp hres
            exact ⟨f, mt, data, payload, rfl, hstat, hra, hfr, hv, hu⟩
          · exfalso
            simp only [listIndexBlocks, hfs, hstat, if_neg hfr] at h
            have hc := listIndexBlocksFromSource_backendCalled tag mar backend
            rw [h] at hc
            simp at hc
    · rintro ⟨f, mt, data, payload, hfs, hstat, hra, hfr, hv, hu⟩
      simp only [listIndexBlocks, hfs, hstat, if_pos hfr,
        readBlocksFromCacheFile, hra, hv, hu]
  · intro f mt hfs hstat hbc
    by_cases hfr : now < mt + ttl
    · omega
    · exfalso
      simp only [listIndexBlocks, hfs, hstat, if_neg hfr] at hbc
      rw [listIndexBlocksFromSource_backendCalled tag mar backend] at hbc
      exact absurd hbc (by simp)
  · intro f mt hfs hstat hstale
    constructor
    · simp only [listIndexBlocks, hfs, hstat, if_neg hstale]
      exact listIndexBlocksFromSource_backendCalled tag mar backend
    · intro blocks data hb hm
      subst hb
      simp only [listIndexBlocks, hfs, hstat, if_neg hstale,
        listIndexBlocksFromSource, hm]
      rfl

/-- Concrete abstract JSON decoder that decodes the payload `[7]` to one
block record (and rejects everything else). -/
def unmOk : List Nat → Except String (List Info) :=
  fun d => if d = [7] then .ok [⟨"blk", 1, 2⟩] else .error ("bad json")

theorem listIndexBlocks_cache_dispatch_witness :
    listIndexBlocks tag0 unmOk mar0 "dir" true
        (fun _ => .opened ⟨some 0, .ok (appendHMAC tag0 [7])⟩) 0 1 (.ok []) =
      ⟨.ok [⟨"blk", 1, 2⟩], false, none⟩ :=
  ((listIndexBlocks_cache_dispatch tag0 unmOk mar0 "dir" true
      (fun _ => .opened ⟨some 0, .ok (appendHMAC tag0 [7])⟩) 0 1 (.ok [])).1
    [⟨"blk", 1, 2⟩]).mpr
    ⟨⟨some 0, .ok (appendHMAC tag0 [7])⟩, 0, appendHMAC tag0 [7], [7], rfl,
      rfl, rfl, by decide, by decide, by decide⟩

@[simp]
theorem countCompacted_nil (isC : String → Bool) : countCompacted isC [] = 0 :=
  rfl

theorem countCompacted_cons (isC : String → Bool) (i : Info) (l : List Info) :
    countCompacted isC (i :: l) =
      (if isC i.blockID then 1 else 0) + countCompacted isC l := by
  rw [countCompacted, countCompacted, List.filter_cons]
  split <;> simp [Nat.add_comm]

theorem readBlocksAux_low_budget (isC : String → Bool) (maxC : Int)
    (hmc : maxC < 1) :
    ∀ (events : List ListBlockEvent) (n : Nat),
      (∀ e ∈ events, e.error = none) →
      readBlocksFromSourceAux isC maxC n events =
        .ok ((takeThroughFirstCompacted isC events).map toInfo) := by
  intro events
  induction events with
  | nil => intro n _; rfl
  | cons e rest ih =>
    intro n h
    have he : e.error = none := h e (by simp)
    by_cases hc : isC e.blockID
    · have hbrk : ((n : Int) + 1) ≥ maxC := by
        have : (0 : Int) ≤ (n : Int) := Int.natCast_nonneg n
        omega
      simp only [readBlocksFromSourceAux, he, hc, if_true, if_pos hbrk,
        takeThroughFirstCompacted, List.map_cons, List.map_nil]
    · rw [readBlocksFromSourceAux.eq_def]
      simp only [he, hc]
      rw [ih n (fun e2 he2 => h e2 (by simp [he2]))]
      simp [takeThroughFirstCompacted, hc]

theorem readBlocksAux_count_bound (isC : String → Bool) (maxC : Int) :
    ∀ (events : List ListBlockEvent) (n : Nat) (l : List Info),
      readBlocksFromSourceAux isC maxC n events = .ok l →
      (countCompacted isC l : Int) ≤ max (maxC - n) 1 := by
  intro events
  induction events with
  | nil =>
    intro n l h
    have : l = [] := by
      rw [readBlocksFromSourceAux] at h
      simpa using h.symm
    subst this
    simp only [countCompacted_nil, Nat.cast_zero]
    have := le_max_right (maxC - (n : Int)) 1
    omega
  | cons e rest ih =>
    intro n l h
    cases he : e.error with
    | some err =>
      rw [readBlocksFromSourceAux.eq_def] at h
      simp only [he] at h
      exact absurd h (by simp)
    | none =>
      rw [readBlocksFromSourceAux.eq_def] at h
      simp only [he] at h
      by_cases hc : isC e.blockID
      · simp only [hc, if_true] at h
        by_cases hbrk : ((n : Int) + 1) ≥ maxC
        · rw [if_pos hbrk] at h
          have : l = [toInfo e] := by simpa using h.symm
          subst this
          have hcount : countCompacted isC [toInfo e] = 1 := by
            simp [countCompacted_cons, toInfo, hc]
          rw [hcount]
          have := le_max_right (maxC - (n : Int)) 1
          omega
        · rw [if_neg hbrk] at h
          cases haux : readBlocksFromSourceAux isC maxC (n + 1) rest with
          | error err => rw [haux] at h; exact absurd h (by simp)
          | ok l2 =>
            rw [haux] at h
            have hl : l = toInfo e :: l2 := by simpa using h.symm
            subst hl
            have hih := ih (n + 1) l2 haux
            rw [countCompacted_cons]
            simp only [toInfo, hc, if_true]
            push_cast
            push_cast at hih
            omega
      · simp only [hc, if_false] at h
        cases haux : readBlocksFromSourceAux isC maxC n rest with
        | error err => rw [haux] at h; exact absurd h (by simp)
        | ok l2 =>
          rw [haux] at h
          have hl : l = toInfo e :: l2 := by simpa using h.symm
          subst hl
          have hih := ih n l2 haux
          rw [countCompacted_cons]
          simp only [toInfo, hc, if_false]
          push_cast
          push_cast at hih
          omega

theorem readBlocksAux_stop_last_compacted (isC : String → Bool) (maxC : Int) :
    ∀ (events : List ListBlockEvent) (n : Nat) (l : List Info),
      (∀ e ∈ events, e.error = none) →
      readBlocksFromSourceAux isC maxC n events = .ok l →
      l = events.map toInfo ∨
        ∃ init last, l = init ++ [last] ∧ isC last.blockID = true := by
  intro events
  induction events with
  | nil =>
    intro n l _ h
    have : l = [] := by
      rw [readBlocksFromSourceAux] at h
      simpa using h.symm
    subst this
    exact Or.inl rfl
  | cons e rest ih =>
    intro n l herr h
    have he : e.error = none := herr e (by simp)
    rw [readBlocksFromSourceAux.eq_def] at h
    simp only [he] at h
    by_cases hc : isC e.blockID
    · simp only [hc, if_true] at h
      by_cases hbrk : ((n : Int) + 1) ≥ maxC
      · rw [if_pos hbrk] at h
        have : l = [toInfo e] := by simpa using h.symm
        subst this
        exact Or.inr ⟨[], toInfo e, rfl, by simpa [toInfo] using hc⟩
      · rw [if_neg hbrk] at h
        cases haux : readBlocksFromSourceAux isC maxC (n + 1) rest with
        | error err => rw [haux] at h; exact absurd h (by simp)
        | ok l2 =>
          rw [haux] at h
          have hl : l = toInfo e :: l2 := by simpa using h.symm
          subst hl
          rcases ih (n + 1) l2 (fun e2 he2 => herr e2 (by simp [he2])) haux with
            hall | ⟨init, last, hsplit, hlast⟩
          · exact Or.inl (by rw [List.map_cons, hall])
          · exact Or.inr ⟨toInfo e :: init, last, by rw [hsplit]; rfl, hlast⟩
    · simp only [hc, if_false] at h
      cases haux : readBlocksFromSourceAux isC maxC n rest with
      | error err => rw [haux] at h; exact absurd h (by simp)
      | ok l2 =>
        rw [haux] at h
        have hl : l = toInfo e :: l2 := by simpa using h.symm
        subst hl
        rcases ih n l2 (fun e2 he2 => herr e2 (by simp [he2])) haux with
          hall | ⟨init, last, hsplit, hlast⟩
        · exact Or.inl (by rw [List.map_cons, hall])
        · exact Or.inr ⟨toInfo e :: init, last, by rw [hsplit]; rfl, hlast⟩

/-- Claim C10: `readBlocksFromSource` appends each listing entry to the result
before checking the compaction counter, so the compacted entry that triggers
an early stop is always included: with `maxCompactions < 1` the result is
exactly the entries up to and including the first compacted-named entry (the
whole listing when none occurs); with `maxCompactions ≥ 1` a successful result
contains at most `maxCompactions` compacted-named entries; and whenever a
successful result is not the whole listing, its last entry is compacted-named
(the entry that triggered the stop). -/
theorem readBlocksFromSource_compaction_bound (isC : String → Bool)
    (maxC : Int) (events : List ListBlockEvent) :
    (maxC < 1 → (∀ e ∈ events, e.error = none) →
      readBlocksFromSource isC maxC events =
        .ok ((takeThroughFirstCompacted isC events).map toInfo)) ∧
    (1 ≤ maxC → ∀ l, readBlocksFromSource isC maxC events = .ok l →
      (countCompacted isC l : Int) ≤ maxC) ∧
    (∀ l, (∀ e ∈ events, e.error = none) →
      readBlocksFromSource isC maxC events = .ok l →
      l = events.map toInfo ∨
        ∃ init last, l = init ++ [last] ∧ isC last.blockID = true) := by
  refine ⟨?_, ?_, ?_⟩
  · intro hmc herr
    exact readBlocksAux_low_budget isC maxC hmc events 0 herr
  · intro hmc l h
    have := readBlocksAux_count_bound isC maxC events 0 l h
    have hm : max (maxC - (0 : Nat)) 1 = maxC := by
      simp only [Nat.cast_zero, sub_zero]
      omega
    omega
  · intro l herr h
    exact readBlocksAux_stop_last_compacted isC maxC events 0 l herr h

theorem readBlocksFromSource_compaction_bound_witness :
    ((0 : Int) < 1) ∧
    readBlocksFromSource (fun s => s == "C") 0
        [⟨"a", 1, 1, none⟩, ⟨"C", 2, 2, none⟩, ⟨"b", 3, 3, none⟩] =
      .ok ((takeThroughFirstCompacted (fun s => s == "C")
        [⟨"a", 1, 1, none⟩, ⟨"C", 2, 2, none⟩, ⟨"b", 3, 3, none⟩]).map toInfo) :=
  ⟨by decide,
    (readBlocksFromSource_compaction_bound (fun s => s == "C") 0
      [⟨"a", 1, 1, none⟩, ⟨"C", 2, 2, none⟩, ⟨"b", 3, 3, none⟩]).1
      (by decide) (by decide)⟩

end Kopia
